import Mathlib

/-
Verification of the WOTS+ / XMSS core (`state.rs`, `xmss.rs`).

Shallow embedding conventions:
  - a byte is a `Nat` (well-formedness `< 256` is carried as a hypothesis
    where it matters);
  - a `BlockLength`-byte block is a `List Nat`;
  - the opaque `Digest` adapter is a parameter `H : Block → Block`;
  - `GenericArray` values become `List`s (their length is enforced by the
    Rust type system, so it appears here as a hypothesis or by
    construction);
  - code that panics (out-of-bounds slicing, `assert!`, `unimplemented!`)
    is modelled with `Option`, `none` standing for the panic;
  - `usize`/`u64` arithmetic is `Nat`; the one place a `u64` is serialized
    (`BigEndian::write_u64`) masks every byte with `&&& 255`, which agrees
    with the `u64` wrap-around;
  - `State::lengths()` is computed with `f64` logarithms in the source, so
    the derived pair `(l1, l2)` is taken as an explicit parameter pair
    everywhere it is consumed.
-/

namespace WOts

/-- A `BlockLength`-byte block: a list of bytes. -/
abbrev Block := List Nat

/-- `State` from state.rs: `W` randomization blocks plus one block per chain. -/
structure State where
  randomization : List Block
  data : List Block

deriving instance DecidableEq for State

/-- The body of `GenericArray::generate(|i| a[i] ^ b[i])`: byte-wise XOR. -/
def xorBlock (a b : Block) : Block :=
  List.zipWith (fun x y => x ^^^ y) a b

/-- Rust slice `l[s..e]` (defined when `s ≤ e ≤ l.length`; the callers
checking those bounds model the panic). -/
def slice (l : List Block) (s e : Nat) : List Block :=
  (l.drop s).take (e - s)

/-- The per-chain fold in `impl Mul for &State`:
`randomization[range].iter().fold(block, |b, a| H(a XOR b))`. -/
def chainAdvance (H : Block → Block) (rands : List Block) (b : Block) : Block :=
  rands.foldl (fun acc a => H (xorBlock a acc)) b

/-- `impl Mul<Message<A>> for &State<A>` (state.rs:205-231), the total part:
clone the randomization, zip data with the ranges, advance each chain over
its slice of the randomization array. -/
def mul (H : Block → Block) (s : State) (rs : List (Nat × Nat)) : State :=
  { randomization := s.randomization,
    data := (s.data.zip rs).map fun p =>
      chainAdvance H (slice s.randomization p.2.1 p.2.2) p.1 }

/-- `impl Mul` with the panic behaviour of `self.randomization[range]` made
explicit: Rust slicing panics unless `start ≤ end ≤ len`, so the operator
only yields a `State` when every zipped range is within bounds. -/
def mulChecked (H : Block → Block) (s : State) (rs : List (Nat × Nat)) : Option State :=
  if (s.data.zip rs).all
      (fun p => decide (p.2.1 ≤ p.2.2) && decide (p.2.2 ≤ s.randomization.length))
  then some (mul H s rs) else none

/-- `State::new` (state.rs:52-62): `assert_eq!(l1 + l2, data.len())`, then
build the record from exactly the supplied fields. -/
def State.new (l1 l2 : Nat) (randomization data : List Block) : Option State :=
  if l1 + l2 = data.length then some { randomization := randomization, data := data }
  else none

/-- `Message::empty` (state.rs:116-126): no ranges yet. -/
def Message.empty : List (Nat × Nat) := []

/-- `Message::add` (state.rs:152-156): push the forward range `0..v`. -/
def Message.add (g : List (Nat × Nat)) (v : Nat) : List (Nat × Nat) :=
  g ++ [(0, v)]

/-- `Message::infinity` (state.rs:128-139): `l1 + l2` copies of the range
`0..(WinternitzMinusOne + 1)`. -/
def Message.infinity (W l1 l2 : Nat) : List (Nat × Nat) :=
  (List.range (l1 + l2)).map fun _ => (0, W + 1)

/-- `Message::inverse` (state.rs:141-150): each `s..e` becomes
`e..(WinternitzMinusOne + 1)`. -/
def Message.inverse (W : Nat) (rs : List (Nat × Nat)) : List (Nat × Nat) :=
  rs.map fun r => (r.2, W + 1)

/-- The digit-split `match` inside `Message::add_many` (state.rs:162-168):
for `W = 0x0f` every byte yields `x / 0x10` then `x & 0xf`; for `W = 0xff`
every byte is one digit; anything else hits `unimplemented!()`. -/
def Message.digitsOf (W : Nat) (buffer : List Nat) : Option (List (Nat × Nat)) :=
  if W = 15 then
    some (buffer.foldl (fun g x => Message.add (Message.add g (x / 16)) (x &&& 15)) Message.empty)
  else if W = 255 then
    some (buffer.foldl (fun g x => Message.add g x) Message.empty)
  else none

/-- `Message::add_many` (state.rs:158-175): split `buffer` into digits,
`assert!(ranges.len() >= count)`, then append the last `count` digit
ranges (`ranges[base..]` with `base = len - count`). -/
def Message.addMany (W : Nat) (self : List (Nat × Nat)) (buffer : List Nat)
    (count : Nat) : Option (List (Nat × Nat)) :=
  (Message.digitsOf W buffer).bind fun ranges =>
    if count ≤ ranges.length then some (self ++ ranges.drop (ranges.length - count))
    else none

/-- `BigEndian::write_u64` into an 8-byte buffer; each byte is masked, which
matches the `u64` representation modulo `2 ^ 64`. -/
def u64be (v : Nat) : List Nat :=
  [(v >>> 56) &&& 255, (v >>> 48) &&& 255, (v >>> 40) &&& 255, (v >>> 32) &&& 255,
   (v >>> 24) &&& 255, (v >>> 16) &&& 255, (v >>> 8) &&& 255, v &&& 255]

/-- `Message::checksum` (state.rs:177-197): guard
`assert!(l2 * m / l1 <= 8)` (a `usize` division, which additionally panics
when `l1 = 0`), slice `self.ranges[0..l1]` (panics when `l1 > len`), sum
`W - end` over it, and feed the big-endian bytes back through `add_many`
keeping `l2` digits. -/
def Message.checksum (W m l1 l2 : Nat) (self : List (Nat × Nat)) : Option (List (Nat × Nat)) :=
  if l1 = 0 then none
  else if l2 * m / l1 ≤ 8 then
    if l1 ≤ self.length then
      Message.addMany W self
        (u64be ((self.take l1).foldl (fun sum r => sum + (W - r.2)) 0)) l2
    else none
  else none

/-- `Message::message` (state.rs:199-202): digits of the digest (keeping
`l1`), then the checksum digits. -/
def Message.message (W m l1 l2 : Nat) (digest : List Nat) : Option (List (Nat × Nat)) :=
  (Message.addMany W Message.empty digest l1).bind (Message.checksum W m l1 l2)

/-- Spec-side characterization of the base-`(w+1)` digit split: for `w = 15`
each byte yields its high nibble then its low nibble; for `w = 255` each
byte is one digit. -/
def baseDigits (W : Nat) (buffer : List Nat) : List Nat :=
  if W = 15 then buffer.flatMap (fun x => [x / 16, x % 16]) else buffer

/-- Spec-side checksum: sum of `w - d` over a digit list. -/
def checksumSum (W : Nat) (ds : List Nat) : Nat :=
  ds.foldl (fun a d => a + (W - d)) 0

/-- Spec-side: the low-order `l2` base-`(w+1)` digits of the big-endian
64-bit encoding of `sum`. -/
def lastDigits (W l2 sum : Nat) : List Nat :=
  (baseDigits W (u64be sum)).drop ((baseDigits W (u64be sum)).length - l2)

/-- Spec-side per-chain semantics: starting from `b`, for each step `j` in
`[s, e)` in increasing order, replace the value by
`H (value XOR randomization[j])`. -/
def chainSpec (H : Block → Block) (rand : List Block) (b : Block) (s e : Nat) : Block :=
  (List.range' s (e - s)).foldl (fun acc j => H (xorBlock (rand.getD j []) acc)) b

/-- Modelled from the spec: `PublicKey::from_secret` lives in signature.rs,
which is not under src/; per spec §4.4 it applies the chain-advance operator
with the `infinity()` encoding. -/
def fromSecret (H : Block → Block) (W l1 l2 : Nat) (sk : State) : Option State :=
  mulChecked H sk (Message.infinity W l1 l2)

/-- Modelled from the spec: `Signature::sign` lives in signature.rs, which is
not under src/; per spec §4.4 it applies the chain-advance operator with the
`message(digest)` encoding. -/
def Signature.sign (H : Block → Block) (W m l1 l2 : Nat) (sk : State)
    (digest : List Nat) : Option State :=
  (Message.message W m l1 l2 digest).bind (mulChecked H sk)

/-- Modelled from the spec: `Signature::verify` lives in signature.rs, which
is not under src/; per spec §4.4 it advances the signature state by
`message(digest).inverse()` and compares the result field-wise with the
public key. -/
def Signature.verify (H : Block → Block) (W m l1 l2 : Nat) (sig pk : State)
    (digest : List Nat) : Option Bool :=
  (Message.message W m l1 l2 digest).bind fun msg =>
    (mulChecked H sig (Message.inverse W msg)).map fun t => decide (t = pk)

/-- A concrete stand-in for the opaque digest adapter (the identity keeps
kernel evaluation cheap; nothing below depends on its choice). -/
def hashId : Block → Block := fun b => b

/-- A well-formed secret `State` for the spec §8 parameter set `w = 15`,
`MessageSize = 32` (so `lengths() = (64, 3)`): 15 randomization blocks and
67 chain blocks. -/
def sk0 : State :=
  { randomization := List.replicate 15 [0], data := List.replicate 67 [0] }

/-- A 32-byte digest. -/
def digest0 : List Nat := List.replicate 32 0

/-- A tiny well-formed state used for witnesses: one randomization block,
one chain. -/
def sk1 : State := { randomization := [[1]], data := [[2]] }

/-- One height level of `XmssTree::collapse` (xmss.rs:45-64): pair the
sequence left to right, combine each complete pair with `f` at this height
index, and carry a trailing unpaired element through unchanged (the source
pushes it after the fold, i.e. at the end, preserving order). -/
def pairStep (f : Nat → α → α → α) (i : Nat) : List α → List α
  | [] => []
  | [a] => [a]
  | a :: b :: t => f i a b :: pairStep f i t

/-- Bit length of `k`, written with explicit fuel so that it is structural
(and hence kernel-evaluable); `fuel ≥ k` suffices. -/
def bitLenAux : Nat → Nat → Nat
  | 0, _ => 0
  | fuel + 1, k => if k = 0 then 0 else bitLenAux fuel (k / 2) + 1

/-- The height count computed in `XmssTree::collapse` (xmss.rs:44):
`size_of::<usize>() * 8 - (data.len() - 1).leading_zeros()`, i.e. the bit
length of `data.len() - 1`. -/
def collapseHeight (n : Nat) : Nat := bitLenAux n (n - 1)

/-- `XmssTree::collapse` (xmss.rs:35-67): `assert!(!data.is_empty())`, fold
`pairStep` over the heights `0..height`, then `assert!(data.len() == 1)`
and pop the root. Both asserts are modelled by `Option`. -/
def collapse (f : Nat → α → α → α) (data : List α) : Option α :=
  if data.isEmpty then none
  else
    match (List.range (collapseHeight data.length)).foldl (fun d i => pairStep f i d) data with
    | [x] => some x
    | _ => none

/-- C1: The spec claims that advancing a well-formed secret state by
`message(d)` and then by `inverse(message(d))` yields the same state as
advancing by `infinity()`, and hence that
`verify(sign(sk, d), PublicKey::from_secret(sk), d) = true`. On the code
this fails: signing succeeds, but `inverse()` (like `infinity()`) produces
ranges ending at `W + 1` while the randomization array has only `W` blocks,
so the verification advance slices the array out of bounds and panics
(modelled as `none`) — `verify` can never return `true`. Evaluated at the
spec §8 parameter set `w = 15`, `lengths() = (64, 3)`. -/
theorem sign_verify_pipeline_hits_out_of_bounds :
    (Signature.sign hashId 15 32 64 3 sk0 digest0).isSome = true ∧
    ((Signature.sign hashId 15 32 64 3 sk0 digest0).bind fun sig =>
      (fromSecret hashId 15 64 3 sk0).bind fun pk =>
        Signature.verify hashId 15 32 64 3 sig pk digest0) = none ∧
    ((Message.message 15 32 64 3 digest0).bind fun msg =>
      (mulChecked hashId sk0 msg).bind fun sig =>
        mulChecked hashId sig (Message.inverse 15 msg)) = none := by
  refine ⟨?_, ?_, ?_⟩ <;> decide

/-- C2: The spec claims that advancing a well-formed state by the
`infinity()` encoding never fails and that every randomization index used
is strictly below `W`. On the code this fails: `infinity()` assigns every
chain the range `[0, W + 1)`, so `mul` slices `randomization[0..W+1]` on a
`W`-block array — index `W` is out of bounds and the code panics
(modelled as `none`). Evaluated at `w = 15`, `lengths() = (64, 3)`. -/
theorem infinity_advance_out_of_bounds :
    mulChecked hashId sk0 (Message.infinity 15 64 3) = none ∧
    Message.infinity 15 64 3 = List.replicate 67 (0, 16) ∧
    sk0.randomization.length = 15 := by
  refine ⟨?_, ?_, ?_⟩ <;> decide

/-- C7: `State::new(randomization, data)` fails exactly when
`data.len() ≠ l1 + l2`; on success the state holds precisely the supplied
randomization and data, and on failure no state at all is produced. -/
theorem state_new_exact (l1 l2 : Nat) (r d : List Block) :
    (State.new l1 l2 r d = some (State.mk r d) ↔ d.length = l1 + l2) ∧
    (State.new l1 l2 r d = none ↔ d.length ≠ l1 + l2) := by
  unfold State.new
  by_cases h : l1 + l2 = d.length
  · simp [h]
  · constructor
    · rw [if_neg h]
      constructor
      · intro hc
        exact absurd hc (by simp)
      · intro hc
        exact absurd hc.symm h
    · rw [if_neg h]
      constructor
      · intro _ hc
        exact h hc.symm
      · intro _
        rfl

/-- C7 witness: a concrete successful construction obtained from
`state_new_exact`. -/
theorem state_new_exact_witness :
    State.new 1 1 [[0]] [[1], [2]] = some (State.mk [[0]] [[1], [2]]) :=
  ((state_new_exact 1 1 [[0]] [[1], [2]]).1).mpr (by decide)

/-- C8 counterexample: both misconfiguration kinds escape construction.
With the unsupported Winternitz value `W = 7` (taking `(l1, l2) = (8, 3)`
for concreteness), `State::new` still succeeds — a usable `State` is
produced, construction performs no Winternitz check — and the fatal
failure (`unimplemented!()` in `add_many`) only surfaces when
`Message::message` runs during encoding/signing. Likewise with the
supported `W = 15` but a parameter set violating the checksum-accumulator
precondition (`l1 = 1`, `l2 = 9`, `m = 1`, so `l2 * m / l1 = 9 > 8`):
`State::new` succeeds and the failure (the `assert!` in `checksum`) only
surfaces inside `Message::message`. This contradicts the claim that
misconfiguration failures occur at construction/setup time and never first
surface during message encoding or signing. -/
theorem misconfig_not_caught_at_construction :
    (State.new 8 3 (List.replicate 7 [0]) (List.replicate 11 [0]) =
       some (State.mk (List.replicate 7 [0]) (List.replicate 11 [0])) ∧
     Message.message 7 3 8 3 [1, 2, 3] = none) ∧
    (State.new 1 9 (List.replicate 15 [0]) (List.replicate 10 [0]) =
       some (State.mk (List.replicate 15 [0]) (List.replicate 10 [0])) ∧
     Message.message 15 1 1 9 [0] = none) := by
  refine ⟨⟨?_, ?_⟩, ⟨?_, ?_⟩⟩ <;> decide

/-- C8 (amended): for either parameter misconfiguration — an unsupported
Winternitz value, or a parameter set violating the checksum-accumulator
precondition `l2 * m / l1 ≤ 8` — the operations do fail fatally, but the
failure occurs at message-encoding time (`Message::message` returns
through `add_many`'s `unimplemented!()` or through `checksum`'s
`assert!`), while `State` construction — which checks only the data
length, neither the Winternitz value nor the checksum precondition —
still produces a usable `State`. -/
theorem misconfig_fails_at_encoding (W m l1 l2 : Nat) (digest : List Nat)
    (r d : List Block) :
    ((W ≠ 15 ∧ W ≠ 255) ∨ ¬(l2 * m / l1 ≤ 8) →
      Message.message W m l1 l2 digest = none) ∧
    (d.length = l1 + l2 → State.new l1 l2 r d = some (State.mk r d)) := by
  constructor
  · intro h
    rcases h with ⟨h15, h255⟩ | hck
    · have hd : Message.digitsOf W digest = none := by
        unfold Message.digitsOf
        rw [if_neg h15, if_neg h255]
      unfold Message.message Message.addMany
      rw [hd]
      rfl
    · cases hadd : Message.addMany W Message.empty digest l1 with
      | none =>
        unfold Message.message
        rw [hadd]
        rfl
      | some x =>
        unfold Message.message
        rw [hadd]
        show Message.checksum W m l1 l2 x = none
        unfold Message.checksum
        by_cases hl : l1 = 0
        · rw [if_pos hl]
        · rw [if_neg hl, if_neg hck]
  · intro hlen
    unfold State.new
    rw [if_pos hlen.symm]

/-- C8 witness: the amended statement applied at the unsupported value
`W = 7`, and at the supported `W = 15` with the violated checksum
precondition `l2 * m / l1 = 10 > 8`. -/
theorem misconfig_fails_at_encoding_witness :
    Message.message 7 5 8 3 [0, 0, 0] = none ∧
    Message.message 15 1 1 10 [0] = none ∧
    State.new 8 3 (List.replicate 7 [1]) (List.replicate 11 [2]) =
      some (State.mk (List.replicate 7 [1]) (List.replicate 11 [2])) := by
  have h1 := misconfig_fails_at_encoding 7 5 8 3 [0, 0, 0]
    (List.replicate 7 [1]) (List.replicate 11 [2])
  have h2 := misconfig_fails_at_encoding 15 1 1 10 [0] [] []
  exact ⟨h1.1 (Or.inl ⟨by decide, by decide⟩), h2.1 (Or.inr (by decide)),
    h1.2 (by decide)⟩

/-- C9: the chain-advance operator copies the randomization array into the
result unchanged (`randomization: self.randomization.clone()`), both for
the total computation and whenever the bounds-checked operator produces a
state; the data vector is freshly computed and the input state, being a
value of a pure function, is not mutated. -/
theorem mul_preserves_randomization (H : Block → Block) (s : State)
    (rs : List (Nat × Nat)) :
    (mul H s rs).randomization = s.randomization ∧
    ∀ t, mulChecked H s rs = some t → t.randomization = s.randomization := by
  refine ⟨rfl, ?_⟩
  intro t ht
  unfold mulChecked at ht
  by_cases hc : (s.data.zip rs).all
      (fun p => decide (p.2.1 ≤ p.2.2) && decide (p.2.2 ≤ s.randomization.length))
  · rw [if_pos hc] at ht
    cases ht
    rfl
  · rw [if_neg hc] at ht
    exact absurd ht (by simp)

/-- C9 witness: a concrete checked advance, with the randomization equality
obtained from `mul_preserves_randomization`. -/
theorem mul_preserves_randomization_witness :
    mulChecked hashId sk1 [(0, 1)] = some (State.mk [[1]] [[3]]) ∧
    (State.mk [[1]] [[3]]).randomization = sk1.randomization :=
  ⟨by decide,
   (mul_preserves_randomization hashId sk1 [(0, 1)]).2 (State.mk [[1]] [[3]]) (by decide)⟩

/-- Folding the hash step over the slice `randomization[s..s+k]` is the
same as stepping through the indices `s, s+1, ..., s+k-1` in increasing
order. -/
theorem chainAdvance_slice (H : Block → Block) (rand : List Block) :
    ∀ (k s : Nat) (b : Block), s + k ≤ rand.length →
      chainAdvance H (slice rand s (s + k)) b =
        (List.range' s k).foldl (fun acc j => H (xorBlock (rand.getD j []) acc)) b := by
  intro k
  induction k with
  | zero =>
    intro s b hle
    simp [slice, chainAdvance, List.range']
  | succ k ih =>
    intro s b hle
    have hs : s < rand.length := by omega
    have hdrop : rand.drop s = rand[s] :: rand.drop (s + 1) := List.drop_eq_getElem_cons hs
    have hslice : slice rand s (s + (k + 1)) = rand[s] :: slice rand (s + 1) (s + 1 + k) := by
      unfold slice
      rw [hdrop]
      have h1 : s + (k + 1) - s = k + 1 := by omega
      have h2 : s + 1 + k - (s + 1) = k := by omega
      rw [h1, h2, List.take_succ_cons]
    rw [hslice]
    unfold chainAdvance
    rw [List.foldl_cons]
    have hrange : List.range' s (k + 1) = s :: List.range' (s + 1) k := List.range'_succ s k 1
    rw [hrange, List.foldl_cons]
    have hgetD : rand.getD s [] = rand[s] := List.getD_eq_getElem rand [] hs
    rw [hgetD]
    exact ih (s + 1) (H (xorBlock rand[s] b)) (by omega)

/-- C3: when every one of the `L` ranges lies within the bounds of the
`W`-block randomization array, the chain-advance operator succeeds and, for
each chain `i` independently, produces from `data[i]` the value obtained by
applying `data[i] := Hash(data[i] XOR randomization[j])` for each `j` from
`start` to `end - 1` in increasing order (`chainSpec`); the slice folded
over for chain `i` has exactly `end - start` elements, so the hash is
invoked exactly `end - start` times; the operator is a pure function, so
the input state is unchanged. -/
theorem mul_advances_each_chain (H : Block → Block) (s : State)
    (rs : List (Nat × Nat))
    (hlen : rs.length = s.data.length)
    (hok : ∀ r ∈ rs, r.1 ≤ r.2 ∧ r.2 ≤ s.randomization.length) :
    mulChecked H s rs = some (mul H s rs) ∧
    (mul H s rs).data =
      (List.range s.data.length).map (fun i =>
        chainSpec H s.randomization (s.data.getD i [])
          (rs.getD i (0, 0)).1 (rs.getD i (0, 0)).2) ∧
    ∀ r ∈ rs, (slice s.randomization r.1 r.2).length = r.2 - r.1 := by
  refine ⟨?_, ?_, ?_⟩
  · unfold mulChecked
    rw [if_pos]
    rw [List.all_eq_true]
    intro p hp
    obtain ⟨b, r⟩ := p
    have hmem := (List.of_mem_zip hp).2
    have hr := hok r hmem
    simp [hr.1, hr.2]
  · apply List.ext_getElem
    · simp [mul, List.length_zip, hlen]
    · intro i h1 h2
      have hi : i < s.data.length := by
        simpa [mul, List.length_zip, hlen] using h1
      have hirs : i < rs.length := by omega
      simp only [mul, List.getElem_map, List.getElem_zip, List.getElem_range]
      have hgd1 : s.data.getD i [] = s.data[i] := List.getD_eq_getElem s.data [] hi
      have hgd2 : rs.getD i (0, 0) = rs[i] := List.getD_eq_getElem rs (0, 0) hirs
      rw [hgd1, hgd2]
      have hmem : rs[i] ∈ rs := List.getElem_mem hirs
      have hr := hok _ hmem
      have hk : rs[i].1 + (rs[i].2 - rs[i].1) = rs[i].2 := by omega
      have hadv := chainAdvance_slice H s.randomization (rs[i].2 - rs[i].1) (rs[i].1)
        (s.data[i]) (by omega)
      rw [hk] at hadv
      rw [hadv]
      rfl
  · intro r hr2
    have h := hok r hr2
    simp only [slice, List.length_take, List.length_drop]
    omega

/-- C3 witness: `mul_advances_each_chain` applied to a one-chain state with
the in-bounds range `[0, 1)`, together with the evaluated result. -/
theorem mul_advances_each_chain_witness :
    mulChecked hashId sk1 [(0, 1)] = some (mul hashId sk1 [(0, 1)]) ∧
    mul hashId sk1 [(0, 1)] = State.mk [[1]] [[3]] :=
  ⟨(mul_advances_each_chain hashId sk1 [(0, 1)] (by decide) (by decide)).1, by decide⟩

/-- The source's bitmask `x & 0xf` is reduction modulo 16. -/
theorem and_fifteen (x : Nat) : x &&& 15 = x % 16 := by
  have h := Nat.and_pow_two_sub_one_eq_mod x 4
  norm_num at h
  exact h

/-- The `w = 15` digit fold of `add_many`, with a general accumulator. -/
theorem digitsOf_15_foldl :
    ∀ (buf : List Nat) (acc : List (Nat × Nat)),
      buf.foldl (fun g x => Message.add (Message.add g (x / 16)) (x &&& 15)) acc =
        acc ++ (buf.flatMap fun x => [x / 16, x % 16]).map (fun v => (0, v)) := by
  intro buf
  induction buf with
  | nil => intro acc; simp
  | cons x t ih =>
    intro acc
    simp only [List.foldl_cons, List.flatMap_cons, List.map_append]
    rw [ih]
    simp [Message.add, and_fifteen, List.append_assoc]

/-- The `w = 255` digit fold of `add_many`, with a general accumulator. -/
theorem digitsOf_255_foldl :
    ∀ (buf : List Nat) (acc : List (Nat × Nat)),
      buf.foldl (fun g x => Message.add g x) acc =
        acc ++ buf.map (fun v => (0, v)) := by
  intro buf
  induction buf with
  | nil => intro acc; simp
  | cons x t ih =>
    intro acc
    simp only [List.foldl_cons]
    rw [ih]
    simp [Message.add, List.append_assoc]

/-- For the two supported Winternitz values, the digit split succeeds and
produces exactly the base-`(w+1)` digits as forward ranges. -/
theorem digitsOf_eq (W : Nat) (hW : W = 15 ∨ W = 255) (buf : List Nat) :
    Message.digitsOf W buf = some ((baseDigits W buf).map fun v => (0, v)) := by
  rcases hW with h | h <;> subst h
  · unfold Message.digitsOf baseDigits
    rw [if_pos rfl, if_pos rfl, digitsOf_15_foldl]
    simp [Message.empty]
  · have hbd : baseDigits 255 buf = buf := by
      unfold baseDigits
      rw [if_neg (by omega)]
    unfold Message.digitsOf
    rw [if_neg (by omega), if_pos rfl, digitsOf_255_foldl, hbd]
    simp [Message.empty]

/-- `w = 15` splits every byte into two digits. -/
theorem baseDigits_15_length (buf : List Nat) :
    (baseDigits 15 buf).length = 2 * buf.length := by
  unfold baseDigits
  rw [if_pos rfl]
  induction buf with
  | nil => rfl
  | cons x t ih =>
    simp only [List.flatMap_cons, List.length_append, List.length_cons,
      List.length_nil] at ih ⊢
    omega

/-- Digits of byte buffers never exceed `w`. -/
theorem baseDigits_le (W : Nat) (buf : List Nat) (hW : W = 15 ∨ W = 255)
    (hb : ∀ b ∈ buf, b < 256) : ∀ d ∈ baseDigits W buf, d ≤ W := by
  rcases hW with h | h <;> subst h
  · unfold baseDigits
    rw [if_pos rfl]
    intro d hd
    rw [List.mem_flatMap] at hd
    obtain ⟨x, hx, hdx⟩ := hd
    have hxb := hb x hx
    simp only [List.mem_cons, List.mem_singleton] at hdx
    rcases hdx with h | h | h
    · subst h; omega
    · subst h; omega
    · simp at h
  · unfold baseDigits
    rw [if_neg (by omega)]
    intro d hd
    have := hb d hd
    omega

/-- Every byte written by `BigEndian::write_u64` is below 256. -/
theorem u64be_lt (v : Nat) : ∀ b ∈ u64be v, b < 256 := by
  have hmask : ∀ a : Nat, a &&& 255 < 256 := by
    intro a
    have := Nat.and_le_right (n := a) (m := 255)
    omega
  intro b hb
  simp only [u64be, List.mem_cons, List.mem_singleton] at hb
  rcases hb with h | h | h | h | h | h | h | h | h <;> first
    | (subst h; exact hmask _)
    | simp at h

/-- When the digit count suffices, `add_many` appends exactly the last
`count` digits of the buffer as forward ranges. -/
theorem addMany_full (W : Nat) (hW : W = 15 ∨ W = 255) (self : List (Nat × Nat))
    (buffer : List Nat) (count : Nat) (hcount : count ≤ (baseDigits W buffer).length) :
    Message.addMany W self buffer count =
      some (self ++
        (((baseDigits W buffer).drop ((baseDigits W buffer).length - count)).map
          (fun v => (0, v)))) := by
  unfold Message.addMany
  rw [digitsOf_eq W hW]
  show (if count ≤ ((baseDigits W buffer).map fun v => (0, v)).length then _ else _) = _
  rw [if_pos (by simpa using hcount)]
  rw [List.length_map, List.map_drop]

/-- C4: for a byte digest and a supported parameter set (`w = 15` with
`l1 = 2m`, or `w = 255` with `l1 = m`, and `l2` at most the digit width of
an 8-byte buffer), `Message::message` produces exactly `l1 + l2` forward
ranges `[0, d)` with every `d ≤ w`: the first `l1` are the base-`(w+1)`
digits of the digest in order, and the last `l2` are the low-order `l2`
base-`(w+1)` digits of the big-endian 64-bit encoding of the checksum
`sum (w - d_i)` over the first `l1` digits — zero-padded, so `l2` digits
are appended even when the checksum encoding has leading zeros. -/
theorem message_encoding_digits_and_checksum (W l1 l2 : Nat) (digest : List Nat)
    (hw : (W = 15 ∧ l1 = 2 * digest.length ∧ l2 ≤ 16) ∨
          (W = 255 ∧ l1 = digest.length ∧ l2 ≤ 8))
    (hb : ∀ b ∈ digest, b < 256)
    (hl1 : 0 < l1)
    (hck : l2 * digest.length / l1 ≤ 8) :
    (baseDigits W digest).length = l1 ∧
    Message.message W digest.length l1 l2 digest =
      some ((baseDigits W digest ++
        lastDigits W l2 (checksumSum W (baseDigits W digest))).map (fun d => (0, d))) ∧
    (baseDigits W digest ++
      lastDigits W l2 (checksumSum W (baseDigits W digest))).length = l1 + l2 ∧
    ∀ d ∈ baseDigits W digest ++
        lastDigits W l2 (checksumSum W (baseDigits W digest)), d ≤ W := by
  have hW : W = 15 ∨ W = 255 := by
    rcases hw with ⟨h, _, _⟩ | ⟨h, _, _⟩
    · exact Or.inl h
    · exact Or.inr h
  have hD : (baseDigits W digest).length = l1 := by
    rcases hw with ⟨h1, h2, _⟩ | ⟨h1, h2, _⟩
    · subst h1; rw [baseDigits_15_length]; omega
    · subst h1
      unfold baseDigits
      rw [if_neg (by omega)]
      omega
  have hC : l2 ≤ (baseDigits W (u64be (checksumSum W (baseDigits W digest)))).length := by
    rcases hw with ⟨h1, _, h3⟩ | ⟨h1, _, h3⟩
    · subst h1
      rw [baseDigits_15_length]
      simp [u64be]
      omega
    · subst h1
      unfold baseDigits
      rw [if_neg (by omega)]
      simp [u64be]
      omega
  refine ⟨hD, ?_, ?_, ?_⟩
  · unfold Message.message
    rw [addMany_full W hW Message.empty digest l1 (by omega)]
    have hdrop0 : (baseDigits W digest).length - l1 = 0 := by omega
    rw [hdrop0, List.drop_zero]
    show Message.checksum W digest.length l1 l2
        (Message.empty ++ (baseDigits W digest).map fun v => (0, v)) = _
    simp only [Message.empty, List.nil_append]
    unfold Message.checksum
    rw [if_neg (by omega), if_pos hck, if_pos (by simp [List.length_map]; omega)]
    have htake : ((baseDigits W digest).map fun v => ((0 : Nat), v)).take l1 =
        (baseDigits W digest).map fun v => (0, v) := by
      have : l1 = ((baseDigits W digest).map fun v => ((0 : Nat), v)).length := by
        simp [List.length_map]; omega
      rw [this, List.take_length]
    rw [htake]
    have hsum : (((baseDigits W digest).map fun v => ((0 : Nat), v)).foldl
        (fun sum r => sum + (W - r.2)) 0) = checksumSum W (baseDigits W digest) := by
      rw [List.foldl_map]
      rfl
    rw [hsum]
    rw [addMany_full W hW _ _ l2 hC]
    rw [List.map_append]
    unfold lastDigits
    rw [List.map_drop]
  · rw [List.length_append]
    unfold lastDigits
    rw [List.length_drop]
    omega
  · intro d hd
    rw [List.mem_append] at hd
    rcases hd with h | h
    · exact baseDigits_le W digest hW hb d h
    · unfold lastDigits at h
      have hmem := List.mem_of_mem_drop h
      exact baseDigits_le W _ hW (u64be_lt _) d hmem

/-- C4 witness: `message_encoding_digits_and_checksum` at `w = 15` with the
2-byte digest `[0xAB, 0x00]` (`l1 = 4`, `l2 = 3`): digits `10, 11, 0, 0`,
checksum `5 + 4 + 15 + 15 = 39 = 0x27`, low nibbles `0, 2, 7`. -/
theorem message_encoding_digits_and_checksum_witness :
    Message.message 15 2 4 3 [171, 0] =
      some [(0, 10), (0, 11), (0, 0), (0, 0), (0, 0), (0, 2), (0, 7)] := by
  have h := message_encoding_digits_and_checksum 15 4 3 [171, 0]
    (Or.inl (by decide)) (by decide) (by decide) (by decide)
  show Message.message 15 [171, 0].length 4 3 [171, 0] = _
  rw [h.2.1]
  decide

/-- One `pairStep` level halves the length, rounding up (the odd trailing
element survives). -/
theorem pairStep_length (f : Nat → α → α → α) (i : Nat) :
    (l : List α) → (pairStep f i l).length = (l.length + 1) / 2
  | [] => by simp [pairStep]
  | [a] => by simp [pairStep]
  | a :: b :: t => by
    have ih := pairStep_length f i t
    simp only [pairStep, List.length_cons, ih]
    omega

/-- With the sum operation, one `pairStep` level preserves the total sum. -/
theorem pairStep_sum (i : Nat) :
    (l : List Nat) → (pairStep (fun _ a b => a + b) i l).sum = l.sum
  | [] => rfl
  | [a] => rfl
  | a :: b :: t => by
    have ih := pairStep_sum i t
    simp only [pairStep, List.sum_cons, ih]
    omega

/-- Folding `pairStep` over at least `log2`-many heights reduces a nonempty
sequence to exactly one element. -/
theorem foldl_pairStep_length (f : Nat → α → α → α) (idxs : List Nat) :
    ∀ l : List α, 1 ≤ l.length → l.length ≤ 2 ^ idxs.length →
      (idxs.foldl (fun d i => pairStep f i d) l).length = 1 := by
  induction idxs with
  | nil =>
    intro l h1 h2
    simp only [List.foldl_nil]
    simp only [List.length_nil, pow_zero] at h2
    omega
  | cons i is ih =>
    intro l h1 h2
    simp only [List.foldl_cons]
    apply ih
    · rw [pairStep_length]
      omega
    · rw [pairStep_length]
      rw [List.length_cons, pow_succ] at h2
      have hpos : 1 ≤ 2 ^ is.length := Nat.one_le_two_pow
      omega

/-- Folding sum-`pairStep` over any heights preserves the total sum. -/
theorem foldl_pairStep_sum (idxs : List Nat) :
    ∀ l : List Nat,
      (idxs.foldl (fun d i => pairStep (fun _ a b => a + b) i d) l).sum = l.sum := by
  induction idxs with
  | nil => intro l; rfl
  | cons i is ih =>
    intro l
    simp only [List.foldl_cons]
    rw [ih, pairStep_sum]

/-- The fuel-based bit length dominates its argument: `k < 2 ^ bitLen k`
whenever the fuel is sufficient. -/
theorem lt_two_pow_bitLenAux :
    ∀ fuel k : Nat, k ≤ fuel → k < 2 ^ bitLenAux fuel k := by
  intro fuel
  induction fuel with
  | zero =>
    intro k hk
    have : k = 0 := by omega
    simp [this, bitLenAux]
  | succ fuel ih =>
    intro k hk
    by_cases hk0 : k = 0
    · simp [hk0, bitLenAux]
    · have hrec := ih (k / 2) (by omega)
      simp only [bitLenAux, if_neg hk0]
      rw [pow_succ]
      omega

/-- Twice the sum of `0, 1, ..., n-1` is `n * (n - 1)`. -/
theorem two_mul_sum_range (n : Nat) : 2 * (List.range n).sum = n * (n - 1) := by
  induction n with
  | zero => rfl
  | succ m ih =>
    rw [List.range_succ, List.sum_append]
    simp only [List.sum_cons, List.sum_nil]
    have hsplit : 2 * ((List.range m).sum + (m + 0)) = 2 * (List.range m).sum + 2 * m := by
      ring
    rw [hsplit, ih]
    cases m with
    | zero => rfl
    | succ k =>
      simp only [Nat.succ_sub_one]
      ring

/-- Gauss sum for `List.range`. -/
theorem sum_range_gauss (n : Nat) : (List.range n).sum = n * (n - 1) / 2 := by
  have h := two_mul_sum_range n
  omega

/-- C5: for every `n ≥ 1`, collapsing the sequence `0, 1, ..., n-1` with
the sum operation yields `n * (n - 1) / 2` — including non-powers-of-two:
at each height the list is paired left to right, complete pairs are
combined, and an odd trailing element is carried forward unchanged, until
one value remains. -/
theorem collapse_sum_range (n : Nat) (h : 1 ≤ n) :
    collapse (fun _ a b => a + b) (List.range n) = some (n * (n - 1) / 2) := by
  have hcond : ¬((List.range n).isEmpty = true) := by
    simp only [List.isEmpty_iff, List.range_eq_nil]
    omega
  have hbound : (List.range n).length ≤ 2 ^ (List.range (collapseHeight (List.range n).length)).length := by
    rw [List.length_range, List.length_range]
    have hbit := lt_two_pow_bitLenAux n (n - 1) (by omega)
    unfold collapseHeight
    omega
  have hlen : ((List.range (collapseHeight (List.range n).length)).foldl
      (fun d i => pairStep (fun _ a b => a + b) i d) (List.range n)).length = 1 :=
    foldl_pairStep_length _ _ _ (by simpa using h) hbound
  obtain ⟨x, hx⟩ := List.length_eq_one.mp hlen
  have hsum := foldl_pairStep_sum
    (List.range (collapseHeight (List.range n).length)) (List.range n)
  rw [hx] at hsum
  simp only [List.sum_cons, List.sum_nil, Nat.add_zero] at hsum
  unfold collapse
  rw [if_neg hcond, hx]
  rw [hsum, sum_range_gauss]

/-- C5 witness: `collapse_sum_range` applied at the non-power-of-two
leaf count 21 (one of the counts from the source's own test). -/
theorem collapse_sum_range_witness :
    1 ≤ 21 ∧ collapse (fun _ a b => a + b) (List.range 21) = some 210 :=
  ⟨by decide, by
    have hc := collapse_sum_range 21 (by decide)
    rw [hc]⟩

/-- C10: collapsing a single-element tree returns that element unchanged —
the computed height for one leaf is zero, so the combination operation is
never invoked: the result is independent of `f` (the statement holds for
every `f`), and instantiating `f` with an operation that adds 1 on every
invocation still returns the leaf itself, so the invocation count is 0. -/
theorem collapse_singleton {α : Type} (f : Nat → α → α → α) (x : α) :
    collapse f [x] = some x ∧ collapseHeight 1 = 0 ∧
    collapse (fun _ a b => a + b + 1) [(0 : Nat)] = some 0 := by
  refine ⟨?_, ?_, ?_⟩
  · simp [collapse, collapseHeight, bitLenAux]
  · simp [collapseHeight, bitLenAux]
  · decide

end WOts
